import Mathlib

/-!
Verification development for the pintail static-site builder
(`pintail/site.py`, `pintail/search.py`, `pintail/git.py`, `pintail/docbook.py`).

The Python code is shallowly embedded: pure methods become Lean functions,
Python exceptions become `Except String` errors (the error string records the
exception message), and filesystem / subprocess side effects become explicit
effect traces (`Eff` lists).  Memoization of pure results
(`Directory._search_domains`, `Page._search_domains`) is modelled by the pure
functions themselves.
-/

/-- Whitespace splitting on a character list: `cur` holds the current word,
reversed. -/
def wsSplitAux : List Char → List Char → List String
  | [], cur => if cur.isEmpty then [] else [String.mk cur.reverse]
  | c :: cs, cur =>
      if c.isWhitespace then
        if cur.isEmpty then wsSplitAux cs []
        else String.mk cur.reverse :: wsSplitAux cs []
      else wsSplitAux cs (c :: cur)

/-- Python `str.split()` with no argument: split on whitespace runs,
dropping empty pieces. -/
def pySplitWs (s : String) : List String := wsSplitAux s.data []

def sepSplitAux (sep : Char) : List Char → List Char → Option (String × String)
  | [], _ => none
  | c :: cs, pre =>
      if c = sep then some (String.mk pre.reverse, String.mk cs)
      else sepSplitAux sep cs (c :: pre)

/-- Python `s.split(sep, 1)` for a one-character separator occurring in `s`:
the part before the first separator and the remainder.  Returns `none` when
`sep` does not occur (the code guards with `':' in domains[i]`). -/
def pySplitOnce (sep : Char) (s : String) : Option (String × String) :=
  sepSplitAux sep s.data []

/-- Python `s.startswith(pre)`. -/
def pyStartsWith (s pre : String) : Bool := pre.data.isPrefixOf s.data

/-- Python `s.endswith(suf)`. -/
def pyEndsWith (s suf : String) : Bool := suf.data.isSuffixOf s.data

/-- Python `os.path.join(a, b)` restricted to the shapes pintail uses
(no drive letters): an absolute second component wins, otherwise the parts
are joined with a single slash. -/
def osPathJoin (a b : String) : String :=
  if pyStartsWith b "/" then b
  else if a = "" ∨ pyEndsWith a "/" then a ++ b
  else a ++ "/" ++ b

/-- One entry of a resolved search-domain list
(`Directory.get_search_domains`): either a plain domain path, or a
`[page_id, domain]` pair coming from a `page_id:domain` component. -/
inductive Entry where
  | plain (dom : String)
  | pair (pid : String) (dom : String)
deriving DecidableEq, Repr

/-- A `Directory` together with its ancestor chain, as far as
`get_search_domains` consults it: each node carries its `path` and the value
of the `search_domain` config key for that path (`None` when unset). -/
inductive Chain where
  | root (path : String) (cfg : Option String)
  | child (path : String) (cfg : Option String) (parent : Chain)
deriving Repr

def Chain.path : Chain → String
  | .root p _ => p
  | .child p _ _ => p

def Chain.cfg : Chain → Option String
  | .root _ c => c
  | .child _ c _ => c

/-- `self.parent.get_search_domains()[0]` on a result that already passed the
callee's own final head check: the head is a plain domain.  An empty list
gives Python's IndexError; a pair head cannot occur for a returned list
(see `get_search_domains_ok_head`), so that branch is marked unreachable. -/
def parentFirstDomain : Except String (List Entry) → Except String String
  | .error e => .error e
  | .ok [] => .error "IndexError"
  | .ok (.plain d :: _) => .ok d
  | .ok (.pair _ _ :: _) => .error "unreachable: returned head is never a pair"

/-- The `_resolve` helper of `Directory.get_search_domains`, with the
parent's first domain (or `/` at the root) already summarized in `pres`:
absolute paths pass through, `self`, `global` and `none` are keywords, and
anything else falls back to the parent's primary domain. -/
def resolveKeyword (path : String) (pres : Except String String)
    (dom : String) : Except String String :=
  if pyStartsWith dom "/" then .ok dom
  else if dom = "self" then .ok path
  else if dom = "global" then .ok "/"
  else if dom = "none" then .ok "none"
  else pres

/-- One component of the `search_domain` list: a component containing `:` is
split once into a `page_id:domain` pair whose domain part is resolved;
otherwise the component itself is resolved. -/
def resolveComponent (path : String) (pres : Except String String)
    (part : String) : Except String Entry :=
  match pySplitOnce (Char.ofNat 58) part with
  | some (pid, rest) => (resolveKeyword path pres rest).map (fun d => Entry.pair pid d)
  | none => (resolveKeyword path pres part).map (fun d => Entry.plain d)

/-- The body of `Directory.get_search_domains` after the parent directory's
resolved list (if any) has been summarized to `pres` by `parentFirstDomain`:
split the config value, resolve each component, then run the final head
check, where a pair head reaches `domains.prepend(...)` and `list` has no
`prepend` attribute, so Python raises AttributeError (an empty split raises
IndexError at `domains[0]`). -/
def resolveDomains (path : String) (cfg : Option String)
    (pres : Except String String) : Except String (List Entry) :=
  match (pySplitWs (cfg.getD "parent")).mapM (resolveComponent path pres) with
  | .error e => .error e
  | .ok [] => .error "IndexError"
  | .ok (.pair _ _ :: _) => .error "AttributeError: list object has no attribute prepend"
  | .ok (.plain d :: rest) => .ok (.plain d :: rest)

/-- `Directory.get_search_domains`, recursing along the parent chain. The
root resolves the `parent` fallback to `/` (`self.parent is None`). -/
def get_search_domains : Chain → Except String (List Entry)
  | .root path cfg => resolveDomains path cfg (.ok "/")
  | .child path cfg parent =>
      resolveDomains path cfg (parentFirstDomain (get_search_domains parent))

/-- The loop of `Page.get_search_domains` over the directory's entries:
pairs contribute their domain only when the page id matches, and a matching
pair whose domain is `none` returns `['none']` immediately. -/
def pageDomainsLoop (pid : String) : List Entry → List String → Except String (List String)
  | [], acc => .ok acc.reverse
  | .plain d :: rest, acc => pageDomainsLoop pid rest (d :: acc)
  | .pair p d :: rest, acc =>
      if p = pid then
        if d = "none" then .ok ["none"]
        else pageDomainsLoop pid rest (d :: acc)
      else pageDomainsLoop pid rest acc

/-- `Page.get_search_domains`: consult the containing directory, short-circuit
to `['none']` when the directory's first domain is `none` (`dms[0]` on an
empty list raises IndexError), otherwise filter the entries for this page. -/
def page_get_search_domains (c : Chain) (pid : String) : Except String (List String) :=
  match get_search_domains c with
  | .error e => .error e
  | .ok [] => .error "IndexError"
  | .ok (d0 :: rest) =>
      if d0 = Entry.plain "none" then .ok ["none"]
      else pageDomainsLoop pid (d0 :: rest) []

/-- A page as `SearchProvider.index_directory` sees it. -/
structure PageS where
  pageId : String
  searchable : Bool
deriving DecidableEq, Repr

/-- The per-page body of `SearchProvider.index_directory` (no active path
filter): a non-searchable page is skipped; otherwise the page's search
domains are resolved, a first domain of `none` skips the page, and any other
page is indexed once per language in `langs`. -/
def index_page_calls (c : Chain) (langs : List (Option String)) (p : PageS) :
    Except String (List (String × Option String)) :=
  if p.searchable then
    match page_get_search_domains c p.pageId with
    | .error e => .error e
    | .ok [] => .error "IndexError"
    | .ok (d0 :: _) =>
        if d0 = "none" then .ok []
        else .ok (langs.map (fun lc => (p.pageId, lc)))
  else .ok []

/-- `SearchProvider.index_directory` with no active path filter: the list of
`index_page(page, lang)` calls it makes, as `(page_id, lang)` pairs.
`langs` is `[None]` plus the translation provider's languages.  An exception
raised while resolving a page's domains propagates. -/
def index_directory_calls (c : Chain) (pages : List PageS)
    (trLangs : List String) : Except String (List (String × Option String)) :=
  match pages.mapM (index_page_calls c (none :: trLangs.map some)) with
  | .error e => .error e
  | .ok calls => .ok calls.flatten

/-- Effects performed while scanning a site: deletion of the stage tree,
construction of `Directory` and `Source` objects, and the git clone / pull
subprocesses launched by `GitSource.__init__`. -/
inductive Eff where
  | deleteStage
  | constructDir (path : String)
  | constructSource (path : String)
  | gitClone (repodir : String)
  | gitPull (repodir : String)
deriving DecidableEq, Repr

/-- `repo.replace('/', '!')` — a single-character replace is a character map. -/
def gitSlug (s : String) : String :=
  String.mk (s.data.map (fun c => if c = Char.ofNat 47 then Char.ofNat 33 else c))

/-- `GitSource.repodir`: the per-(repository, branch) clone slug,
`repo.replace('/', '!') + '@@' + branch.replace('/', '!')`. -/
def git_repodir (repo branch : String) : String :=
  gitSlug repo ++ "@@" ++ gitSlug branch

/-- The configuration a `GitSource` reads: its repository and branch
(`git_branch` already defaulted to `master` by the caller of this model),
whether the per-(repo, branch) clone directory exists on disk, and the
`git_update` / `git_directory` config values for the source's name. -/
structure GitCfg where
  repo : String
  branch : String
  existsClone : Bool
  gitUpdateCfg : Option String
  gitDirCfg : Option String
deriving DecidableEq, Repr

/-- The subprocess effects of `GitSource.__init__`: pull when the clone
exists, updates are enabled (`site._update`) and `git_update` is not the
string `false`; clone when the clone directory is absent. -/
def gitSourceEffects (update : Bool) (g : GitCfg) : List Eff :=
  if g.existsClone then
    if update && g.gitUpdateCfg ≠ some "false" then
      [Eff.gitPull (git_repodir g.repo g.branch)]
    else []
  else [Eff.gitClone (git_repodir g.repo g.branch)]

/-- `GitSource.get_source_path`: `absrepodir` plus the `git_directory`
config value (empty when unset). -/
def git_get_source_path (pindir : String) (g : GitCfg) : String :=
  osPathJoin (osPathJoin (osPathJoin pindir "git") (git_repodir g.repo g.branch))
    (g.gitDirCfg.getD "")

/-- The filesystem-and-config input of `Directory.scan_directory` for one
path, as the code consumes it: whether a real directory backs the path
(step 1: a plain `Source`), the git sources contributed for it by
`GitSource.create_sources` (steps 2–3), the subdirectory names enumerated
across all sources together with the content at the corresponding subpath
(one entry per `(source, name)` hit of the `os.listdir` loop), and the page
ids of the pages the `Page` plugins create, flattened in the loop order
(source-major, then plugin, then page). -/
inductive FST where
  | node (hasLocal : Bool) (gits : List GitCfg) (subs : List (String × FST))
      (pageIds : List String)

/-- `Site.get_ignore_directory`. -/
def get_ignore_directory (path : String) : Bool :=
  path = "/__pintail__/" || path = "/.git/"

/-- The page loop of `Directory.scan_directory`: `seen` models the
`by_page_id` keys, `acc` the `self.pages` list built so far (reversed).
A page whose id is already present raises
`DuplicatePageException(self, 'Duplicate page id ' + page.page_id)`. -/
def scan_pages (seen acc : List String) : List String → Except String (List String)
  | [] => .ok acc.reverse
  | p :: rest =>
      if p ∈ seen then .error ("Duplicate page id " ++ p)
      else scan_pages (p :: seen) (p :: acc) rest

/-- A scanned `Directory`: its path, its pages (by page id, in scan order)
and its subdirectories. -/
inductive DirTree where
  | node (path : String) (pages : List String) (subdirs : List DirTree)

mutual
/-- `Directory.scan_directory` (driven from `Directory.__init__`): collect
sources (emitting their construction and git effects), recursively construct
child directories for each subdirectory name that is not ignored, then run
the duplicate-checked page loop.  Returns the effect trace together with the
scanned tree, or the first `DuplicatePageException` raised. -/
def scan_directory (update : Bool) (path : String) :
    FST → List Eff × Except String DirTree
  | .node hasLocal gits subs pageIds =>
    let srcEffs := Eff.constructDir path ::
      ((if hasLocal then [Eff.constructSource path] else []) ++
        gits.flatMap (gitSourceEffects update))
    match scanSubdirs update path subs with
    | (effs, .error e) => (srcEffs ++ effs, .error e)
    | (effs, .ok ds) =>
      match scan_pages [] [] pageIds with
      | .error e => (srcEffs ++ effs, .error e)
      | .ok ps => (srcEffs ++ effs, .ok (DirTree.node path ps ds))

/-- The subdirectory loop of `scan_directory`: `subpath = path + name + '/'`,
ignored paths are skipped, and `Directory(self.site, subpath, parent=self)`
recurses before the next name is examined. -/
def scanSubdirs (update : Bool) (path : String) :
    List (String × FST) → List Eff × Except String (List DirTree)
  | [] => ([], .ok [])
  | (name, sub) :: rest =>
    let subpath := path ++ name ++ "/"
    if get_ignore_directory subpath then scanSubdirs update path rest
    else
      match scan_directory update subpath sub with
      | (effs, .error e) => (effs, .error e)
      | (effs, .ok d) =>
        match scanSubdirs update path rest with
        | (effs2, r) => (effs ++ effs2, r.map (fun ds => d :: ds))
end

mutual
/-- `Directory.iter_pages`, tagging each page id with its directory's path. -/
def site_pages : DirTree → List (String × String)
  | .node path pages subs => pages.map (fun pid => (path, pid)) ++ sitePagesList subs

def sitePagesList : List DirTree → List (String × String)
  | [] => []
  | d :: ds => site_pages d ++ sitePagesList ds
end

mutual
/-- The paths of `Directory.iter_directories`. -/
def dir_paths : DirTree → List String
  | .node path _ subs => path :: dirPathsList subs

def dirPathsList : List DirTree → List String
  | [] => []
  | d :: ds => dir_paths d ++ dirPathsList ds
end

/-- `Page.site_id` of a `(directory path, page id)` pair:
`self.directory.path + self.page_id`. -/
def site_id (pr : String × String) : String := pr.1 ++ pr.2

/-- The `Site` state `scan_site` touches: `self.root` is the only attribute
it assigns. -/
structure SiteSt where
  root : Option DirTree

/-- `Site.scan_site` for a site whose config declares no directory sections
beyond the scanned tree (the synthesis loop for config-only directories,
site.py:1128-1146, adds nothing then): if `self.root` is set, return at once
with no effects; otherwise delete the stage tree when it exists, then build
the root `Directory`.  When the scan raises, the exception propagates before
`self.root` is assigned. -/
def scan_site (update stageExists : Bool) (fs : FST) (st : SiteSt) :
    SiteSt × List Eff :=
  match st.root with
  | some _ => (st, [])
  | none =>
    let dels := if stageExists then [Eff.deleteStage] else []
    match scan_directory update "/" fs with
    | (effs, .ok t) => ({ root := some t }, dels ++ effs)
    | (effs, .error _) => ({ root := none }, dels ++ effs)

/-- The DocBook namespace marker in lxml tag names,
`'\x7bhttp://docbook.org/ns/docbook\x7d'`. -/
def DOCBOOK_NS : String := "\x7bhttp://docbook.org/ns/docbook\x7d"

def DOCBOOK_CHUNKS_BASE : List String :=
  ["appendix", "article", "bibliography", "bibliodiv", "book", "chapter",
   "colophon", "dedication", "glossary", "glossdiv", "index", "lot", "part",
   "preface", "refentry", "reference", "sect1", "sect2", "sect3", "sect4",
   "sect5", "section", "setindex", "simplesect", "toc"]

/-- `DOCBOOK_CHUNKS`: the chunk element names, bare and namespaced. -/
def DOCBOOK_CHUNKS : List String :=
  DOCBOOK_CHUNKS_BASE ++ DOCBOOK_CHUNKS_BASE.map (fun el => DOCBOOK_NS ++ el)

/-- An XML element as `DocBookPage.__init__` inspects it: its lxml tag, its
`id` attribute, its `xml:id` attribute, and its element children. -/
inductive XNode where
  | node (tag : String) (idAttr : Option String) (xmlId : Option String)
      (children : List XNode)

def XNode.tag : XNode → String
  | .node t _ _ _ => t

def XNode.idAttr : XNode → Option String
  | .node _ i _ _ => i

def XNode.xmlId : XNode → Option String
  | .node _ _ x _ => x

/-- Python `a or b` on attribute lookups: an absent attribute is `None` and
an empty string is falsy, so either one falls through to `b`. -/
def pyAttrOr (a b : Option String) : Option String :=
  if a = none ∨ a = some "" then b else a

mutual
/-- All `id` and `xml:id` attribute values present in a tree: the match set
of the xpath `//*[@id = s or @xml:id = s]` is nonempty iff `s` is in this
list. -/
def used_ids : XNode → List String
  | .node _ i x cs => i.toList ++ x.toList ++ usedIdsList cs

def usedIdsList : List XNode → List String
  | [] => []
  | c :: cs => used_ids c ++ usedIdsList cs
end

/-- `'page' + str(n)`. -/
def pageStr (n : Nat) : String := "page" ++ toString n

/-- The `while` loop advancing `self._fixid` past ids that already occur in
the (live) tree.  Fuel `used.length + 1` always suffices: among that many
distinct candidate strings at least one is not in `used`
(see `nextFree_not_mem`). -/
def nextFreeAux (used : List String) : Nat → Nat → Nat
  | 0, n => n
  | fuel + 1, n => if pageStr n ∈ used then nextFreeAux used fuel (n + 1) else n

def nextFree (used : List String) (n : Nat) : Nat :=
  nextFreeAux used (used.length + 1) n

/-- The mutable state of the `_fixids` walk: the `self._fixid` counter, the
`self._fixed` flag, and the ids present in the live tree (the original ids
plus every id assigned so far — the xpath in the `while` loop runs against
`self._tree`, which already contains the ids set earlier in the walk). -/
structure FixSt where
  fixid : Nat
  fixed : Bool
  used : List String

mutual
/-- `_fixids(node)` from `DocBookPage.__init__`: on a chunk element whose
`id`-or-`xml:id` is missing, synthesize an id — `index` for the document
root, otherwise `page{n}` for the first unused `n` — set it (`xml:id` for
namespaced tags, `id` otherwise), record `self._fixed`, and recurse into the
children; non-chunk elements are not entered at all. -/
def fixNode (isRoot : Bool) (st : FixSt) : XNode → XNode × FixSt
  | .node tag i x cs =>
    if tag ∈ DOCBOOK_CHUNKS then
      match pyAttrOr i x with
      | some _ =>
        let (cs2, st2) := fixList st cs
        (.node tag i x cs2, st2)
      | none =>
        let (chunkid, st1) :=
          if isRoot then ("index", st)
          else
            let m := nextFree st.used st.fixid
            (pageStr m, { st with fixid := m })
        let st2 := { st1 with fixed := true, used := chunkid :: st1.used }
        let (i2, x2) :=
          if pyStartsWith tag DOCBOOK_NS then (i, some chunkid)
          else (some chunkid, x)
        let (cs2, st3) := fixList st2 cs
        (.node tag i2 x2 cs2, st3)
    else (.node tag i x cs, st)

def fixList (st : FixSt) : List XNode → List XNode × FixSt
  | [] => ([], st)
  | c :: cs =>
    let (c2, st2) := fixNode false st c
    let (cs2, st3) := fixList st2 cs
    (c2 :: cs2, st3)
end

/-- The id-fixing pass of `DocBookPage.__init__` on the staged tree:
`self._fixid` starts at 1, `self._fixed` at `False`, and the live tree
initially holds exactly the document's explicit ids. -/
def docbook_fixids (t : XNode) : XNode × FixSt :=
  fixNode true { fixid := 1, fixed := false, used := used_ids t } t

/-- `self._tree.write(...)` runs exactly when `self._fixed` is set:
the number of times the staged file is rewritten after parsing. -/
def stage_rewrites (st : FixSt) : Nat := if st.fixed then 1 else 0

/-- A `DocBookPage`: the primary page of one DocBook document. -/
structure DocBookPageM where
  source_file : String
  tree : XNode

/-- `DocBookPage.page_id`: always the constant `index`, whatever the source
file name or document tree. -/
def DocBookPageM.page_id (_ : DocBookPageM) : String := "index"


mutual
/-- Every directory of a scanned tree has pairwise-distinct page ids. -/
def pages_nodup : DirTree → Prop
  | .node _ pages subs => pages.Nodup ∧ pagesNodupList subs

def pagesNodupList : List DirTree → Prop
  | [] => True
  | d :: ds => pages_nodup d ∧ pagesNodupList ds
end

/-- A string without a slash, as filesystem entry names from `os.listdir`
are. -/
def noSlash (s : String) : Prop := Char.ofNat 47 ∉ s.data

/-- Well-formedness of a scan input: subdirectory names are what a real
filesystem can return (nonempty, no slash, and — for a directory whose
sources do not duplicate entries — pairwise distinct), and page ids contain
no slash. -/
inductive WFScanInput : FST → Prop where
  | node {hasLocal : Bool} {gits : List GitCfg} {subs : List (String × FST)}
      {pageIds : List String}
      (hsubs : ∀ p ∈ subs, WFScanInput p.2)
      (hnames : (subs.map Prod.fst).Nodup)
      (hne : ∀ nm ∈ subs.map Prod.fst, nm ≠ "" ∧ noSlash nm)
      (hpids : ∀ pid ∈ pageIds, noSlash pid) :
      WFScanInput (.node hasLocal gits subs pageIds)

/-- The scan input of the C2 counterexample: a Mallard page whose `id`
attribute contains a slash (`b/index`) sits in `/a/` next to a real
subdirectory `b/` holding a page `index`. -/
def fsC2 : FST :=
  .node true []
    [("a", .node true [] [("b", .node true [] [] ["index"])] ["b/index"])] []

/-- The scan input of the C9 counterexample: the site itself is empty, but
one git source is configured whose clone directory already exists, with
updates enabled. -/
def fsC9 : FST :=
  .node true [{ repo := "u/r", branch := "main", existsClone := true,
                gitUpdateCfg := none, gitDirCfg := none }] [] []

mutual
/-- Every chunk element reachable by the `_fixids` walk carries an id:
the state of a staged tree after the id-fixing pass. -/
def allFixed : XNode → Prop
  | .node tag i x cs =>
      tag ∈ DOCBOOK_CHUNKS → (pyAttrOr i x ≠ none ∧ allFixedList cs)

def allFixedList : List XNode → Prop
  | [] => True
  | c :: cs => allFixed c ∧ allFixedList cs
end

/-- Decimal decoding of a digit-character list: left inverse of the decimal
rendering used by `'page' + str(n)`. -/
def decChars (l : List Char) : Nat :=
  l.foldl (fun acc c => acc * 10 + (c.toNat - 48)) 0

/-- Invariant of one step of the `_fixids` walk from state `st` to state
`stOut`: `ms` is the list of synthesized page numbers in reverse assignment
order and `idx` the `index` id when the walk assigned it to the document
root.  The synthesized ids extend the live id set, every synthesized page id
was fresh at its assignment (in particular fresh with respect to `st.used`),
the page numbers strictly increase in assignment order starting no lower
than the incoming counter (strictly above it when its page id was already
taken), the outgoing counter is the last number assigned, and the `fixed`
flag is set exactly when it was set before or something was assigned. -/
def FixInv (isRoot : Bool) (st stOut : FixSt) (ms : List Nat)
    (idx : List String) : Prop :=
  stOut.used = ms.map pageStr ++ (idx ++ st.used) ∧
  (idx = [] ∨ (isRoot = true ∧ idx = ["index"])) ∧
  (∀ m ∈ ms, pageStr m ∉ st.used ∧ st.fixid ≤ m) ∧
  ms.Chain' (fun a b => b < a) ∧
  ((ms = [] ∧ stOut.fixid = st.fixid) ∨ ms.head? = some stOut.fixid) ∧
  (pageStr st.fixid ∈ st.used → ∀ m ∈ ms, st.fixid < m) ∧
  (stOut.fixed = true ↔ (st.fixed = true ∨ ms ≠ [] ∨ idx ≠ []))

/-! ## Helper lemmas -/

theorem resolveDomains_ok_head {path : String} {cfg : Option String}
    {pres : Except String String} {l : List Entry}
    (h : resolveDomains path cfg pres = .ok l) :
    ∃ d t, l = .plain d :: t := by
  unfold resolveDomains at h
  split at h
  · exact absurd h (by simp)
  · exact absurd h (by simp)
  · exact absurd h (by simp)
  · rename_i d rest heq
    exact ⟨d, rest, by injection h with h2; exact h2.symm⟩

theorem get_search_domains_ok_head {c : Chain} {l : List Entry}
    (h : get_search_domains c = .ok l) : ∃ d t, l = .plain d :: t := by
  cases c with
  | root path cfg => exact resolveDomains_ok_head h
  | child path cfg parent => exact resolveDomains_ok_head h

theorem pageDomainsLoop_pair_none {pid : String} :
    ∀ (es : List Entry) (acc : List String), Entry.pair pid "none" ∈ es →
      pageDomainsLoop pid es acc = .ok ["none"] := by
  intro es
  induction es with
  | nil => intro acc h; simp at h
  | cons e rest ih =>
    intro acc h
    match e with
    | .plain d =>
      have hr : Entry.pair pid "none" ∈ rest := by
        rcases List.mem_cons.mp h with h1 | h1
        · exact absurd h1 (by simp)
        · exact h1
      simpa [pageDomainsLoop] using ih (d :: acc) hr
    | .pair p d =>
      by_cases hp : p = pid
      · by_cases hd : d = "none"
        · subst hp; subst hd; simp [pageDomainsLoop]
        · have hr : Entry.pair pid "none" ∈ rest := by
            rcases List.mem_cons.mp h with h1 | h1
            · exact absurd h1 (by simp [Entry.pair.injEq]; intro _ he; exact hd he.symm)
            · exact h1
          simpa [pageDomainsLoop, hp, hd] using ih (d :: acc) hr
      · have hr : Entry.pair pid "none" ∈ rest := by
          rcases List.mem_cons.mp h with h1 | h1
          · exact absurd h1 (by simp [Entry.pair.injEq]; intro he; exact absurd he.symm hp)
          · exact h1
        simpa [pageDomainsLoop, hp] using ih acc hr

theorem page_get_search_domains_pair_none {c : Chain} {pid : String}
    {dms : List Entry} (hc : get_search_domains c = .ok dms)
    (hmem : Entry.pair pid "none" ∈ dms) :
    page_get_search_domains c pid = .ok ["none"] := by
  obtain ⟨d, t, rfl⟩ := get_search_domains_ok_head hc
  unfold page_get_search_domains
  rw [hc]
  by_cases hd : Entry.plain d = Entry.plain "none"
  · simp [hd]
  · simp only [hd, if_false]
    exact pageDomainsLoop_pair_none _ _ hmem

theorem index_page_calls_mem_fst {c : Chain} {langs : List (Option String)}
    {p : PageS} {lp : List (String × Option String)}
    (h : index_page_calls c langs p = .ok lp) :
    ∀ x ∈ lp, x.1 = p.pageId := by
  unfold index_page_calls at h
  split at h
  · split at h
    · exact absurd h (by simp)
    · exact absurd h (by simp)
    · split at h
      · injection h with h2; subst h2; intro x hx; simp at hx
      · injection h with h2; subst h2
        intro x hx
        obtain ⟨lc, _, rfl⟩ := List.mem_map.mp hx
        rfl
  · injection h with h2; subst h2; intro x hx; simp at hx

theorem index_page_calls_skips_none_pair {c : Chain} {langs : List (Option String)}
    {p : PageS} {dms : List Entry} (hc : get_search_domains c = .ok dms)
    (hmem : Entry.pair p.pageId "none" ∈ dms) :
    index_page_calls c langs p = .ok [] := by
  unfold index_page_calls
  split
  · rw [page_get_search_domains_pair_none hc hmem]
    simp
  · rfl

theorem index_page_calls_head_none {c : Chain} {langs : List (Option String)}
    {p : PageS} {rest : List Entry}
    (hc : get_search_domains c = .ok (Entry.plain "none" :: rest)) :
    index_page_calls c langs p = .ok [] := by
  unfold index_page_calls
  split
  · unfold page_get_search_domains
    rw [hc]
    simp
  · rfl

theorem mapM_index_all_empty {c : Chain} {langs : List (Option String)} :
    ∀ (pages : List PageS),
      (∀ p ∈ pages, index_page_calls c langs p = .ok []) →
      pages.mapM (index_page_calls c langs) = .ok (pages.map fun _ => []) := by
  intro pages
  induction pages with
  | nil => intro _; rfl
  | cons p rest ih =>
    intro h
    rw [List.mapM_cons, h p (by simp)]
    rw [ih (fun q hq => h q (by simp [hq]))]
    rfl

theorem mapM_index_none_pair_not_mem {c : Chain} {langs : List (Option String)}
    {pid : String} {dms : List Entry}
    (hc : get_search_domains c = .ok dms)
    (hmem : Entry.pair pid "none" ∈ dms) :
    ∀ (pages : List PageS) (ls : List (List (String × Option String))),
      pages.mapM (index_page_calls c langs) = .ok ls →
      ∀ lc, (pid, lc) ∉ ls.flatten := by
  intro pages
  induction pages with
  | nil =>
    intro ls h lc
    rw [List.mapM_nil] at h
    have : ls = [] := by simpa [pure, Except.pure] using h.symm
    subst this; simp
  | cons p rest ih =>
    intro ls h lc hmem2
    rw [List.mapM_cons] at h
    cases hfp : index_page_calls c langs p with
    | error e => rw [hfp] at h; exact absurd h (by simp [Bind.bind, Except.bind])
    | ok lp =>
      rw [hfp] at h
      cases hrest : rest.mapM (index_page_calls c langs) with
      | error e => rw [hrest] at h; exact absurd h (by simp [Bind.bind, Except.bind])
      | ok ls2 =>
        rw [hrest] at h
        have hls : ls = lp :: ls2 := by
          simpa [Bind.bind, Except.bind, pure, Except.pure] using h.symm
        subst hls
        have hmem3 : (pid, lc) ∈ lp ++ ls2.flatten := by
          simpa [List.flatten_cons] using hmem2
        rcases List.mem_append.mp hmem3 with hx | hx
        · have hfst := index_page_calls_mem_fst hfp (pid, lc) hx
          have hppid : p.pageId = pid := hfst.symm
          rw [← hppid] at hmem
          rw [index_page_calls_skips_none_pair hc hmem] at hfp
          injection hfp with h2
          rw [← h2] at hx
          simp at hx
        · exact ih ls2 hrest lc (by simpa using hx)

/-! ## Claim theorems -/

/-- C4, counterexample: for a directory configured with
`search_domain = /d/ none`, the searchable page `p` resolves its search
domains to `['/d/', 'none']` — so the value `none` occurs in the page's
resolved chain, as a plain entry at a later position — yet
`index_directory` still calls `index_page` for it (the code only inspects
`dms[0]`). -/
theorem index_page_called_despite_none_in_chain :
    page_get_search_domains (Chain.root "/" (some "/d/ none")) "p" =
      .ok ["/d/", "none"] ∧
    index_directory_calls (Chain.root "/" (some "/d/ none"))
      [⟨"p", true⟩] [] = .ok [("p", none)] :=
  ⟨rfl, rfl⟩

/-- C4, amended: a page is excluded from every `index_page` call exactly in
the two short-circuit cases the code implements: when the directory's first
resolved domain is `none` (then no page of the directory is indexed at all),
and when some `page_id:none` mapping in the directory's resolved list
matches the page.  A plain `none` at a later position does not exclude. -/
theorem index_directory_none_shortcircuit (c : Chain) (pages : List PageS)
    (trLangs : List String) (dms : List Entry)
    (hc : get_search_domains c = .ok dms) :
    (∀ rest, dms = Entry.plain "none" :: rest →
      index_directory_calls c pages trLangs = .ok []) ∧
    (∀ pid, Entry.pair pid "none" ∈ dms →
      ∀ l, index_directory_calls c pages trLangs = .ok l →
        ∀ lc, (pid, lc) ∉ l) := by
  constructor
  · intro rest hrest
    subst hrest
    unfold index_directory_calls
    rw [mapM_index_all_empty pages
      (fun p _ => index_page_calls_head_none hc)]
    simp
  · intro pid hmem l hl lc
    unfold index_directory_calls at hl
    cases hm : pages.mapM (index_page_calls c (none :: trLangs.map some)) with
    | error e => rw [hm] at hl; exact absurd hl (by simp)
    | ok ls =>
      rw [hm] at hl
      injection hl with hl2
      subst hl2
      exact mapM_index_none_pair_not_mem hc hmem pages ls hm lc

/-- C4, amended, witness: a directory whose first resolved domain is `none`
indexes nothing, and a `p:none` mapping excludes page `p`. -/
theorem index_directory_none_shortcircuit_witness :
    (index_directory_calls (Chain.root "/" (some "none")) [⟨"p", true⟩] [] =
      .ok []) ∧
    (("p", (none : Option String)) ∉ [(("q" : String), (none : Option String))]) :=
  ⟨(index_directory_none_shortcircuit (Chain.root "/" (some "none"))
      [⟨"p", true⟩] [] [Entry.plain "none"] rfl).1 [] rfl,
   (index_directory_none_shortcircuit (Chain.root "/" (some "/a/ p:none"))
      [⟨"p", true⟩, ⟨"q", true⟩] [] [Entry.plain "/a/", Entry.pair "p" "none"]
      rfl).2 "p" (by decide) [("q", none)] rfl none⟩

/-- C5: a directory with no `search_domain` config resolves to the single
entry `['parent']`, which `_resolve` turns into the parent's first resolved
domain — `/` when there is no parent.  The parent's resolved list always
starts with a plain domain. -/
theorem get_search_domains_unconfigured (p : String) (pc : Chain)
    (dl : List Entry) (hp : get_search_domains pc = .ok dl) :
    get_search_domains (Chain.root p none) = .ok [.plain "/"] ∧
    ∃ h t, dl = .plain h :: t ∧
      get_search_domains (Chain.child p none pc) = .ok [.plain h] := by
  obtain ⟨h, t, rfl⟩ := get_search_domains_ok_head hp
  refine ⟨rfl, h, t, rfl, ?_⟩
  show resolveDomains p none (parentFirstDomain (get_search_domains pc)) = _
  rw [hp]
  rfl

/-- C5, witness: at the root, and one level below an unconfigured root. -/
theorem get_search_domains_unconfigured_witness :
    get_search_domains (Chain.root "/a/" none) = .ok [.plain "/"] ∧
    ∃ h t, [Entry.plain "/"] = Entry.plain h :: t ∧
      get_search_domains (Chain.child "/a/" none (Chain.root "/" none)) =
        .ok [.plain h] :=
  get_search_domains_unconfigured "/a/" (Chain.root "/" none)
    [Entry.plain "/"] rfl

/-- C6: evaluating `Directory.get_search_domains` on the failing input — a
`search_domain` config whose first whitespace-separated component is a
page-id mapping (`idx:/sub/ /x/`) — does not terminate normally: the
resolved head is a `[page_id, domain]` pair, so the code reaches
`domains.prepend(self.parent.get_search_domains[0])` and Python raises
AttributeError, because `list` has no `prepend` method. -/
theorem get_search_domains_pair_head_raises :
    get_search_domains (Chain.root "/" (some "idx:/sub/ /x/")) =
      .error "AttributeError: list object has no attribute prepend" :=
  rfl

theorem scan_pages_ok_inv :
    ∀ (ps seen acc l : List String), scan_pages seen acc ps = .ok l →
      l = acc.reverse ++ ps ∧ ps.Nodup ∧ ∀ p ∈ ps, p ∉ seen := by
  intro ps
  induction ps with
  | nil =>
    intro seen acc l h
    unfold scan_pages at h
    injection h with h2
    subst h2
    simp
  | cons p rest ih =>
    intro seen acc l h
    unfold scan_pages at h
    by_cases hp : p ∈ seen
    · rw [if_pos hp] at h; exact absurd h (by simp)
    · rw [if_neg hp] at h
      obtain ⟨h1, h2, h3⟩ := ih (p :: seen) (p :: acc) l h
      refine ⟨by simpa using h1, ?_, ?_⟩
      · refine List.nodup_cons.mpr ⟨?_, h2⟩
        intro hpr
        exact (h3 p hpr) (by simp)
      · intro q hq
        rcases List.mem_cons.mp hq with rfl | hq2
        · exact hp
        · intro hqs
          exact (h3 q hq2) (by simp [hqs])

theorem scan_pages_dup :
    ∀ (ps seen acc : List String),
      ¬(ps.Nodup ∧ ∀ p ∈ ps, p ∉ seen) →
      ∃ pid, scan_pages seen acc ps = .error ("Duplicate page id " ++ pid) ∧
        (2 ≤ ps.count pid ∨ (pid ∈ ps ∧ pid ∈ seen)) := by
  intro ps
  induction ps with
  | nil =>
    intro seen acc h
    exact absurd ⟨List.nodup_nil, by simp⟩ h
  | cons p rest ih =>
    intro seen acc h
    by_cases hp : p ∈ seen
    · refine ⟨p, ?_, Or.inr ⟨by simp, hp⟩⟩
      unfold scan_pages
      rw [if_pos hp]
    · have hsub : ¬(rest.Nodup ∧ ∀ q ∈ rest, q ∉ p :: seen) := by
        intro ⟨hn, hs⟩
        refine h ⟨List.nodup_cons.mpr ⟨?_, hn⟩, ?_⟩
        · intro hpr
          exact (hs p hpr) (by simp)
        · intro q hq
          rcases List.mem_cons.mp hq with rfl | hq2
          · exact hp
          · intro hqs
            exact (hs q hq2) (by simp [hqs])
      obtain ⟨pid, herr, hcase⟩ := ih (p :: seen) (p :: acc) hsub
      refine ⟨pid, ?_, ?_⟩
      · unfold scan_pages
        rw [if_neg hp]
        exact herr
      · rcases hcase with hcnt | ⟨hin, hseen⟩
        · refine Or.inl ?_
          have h2 := hcnt
          rw [List.count_cons]
          omega
        · rcases List.mem_cons.mp hseen with heq | hs2
          · refine Or.inl ?_
            subst heq
            have h1 : 0 < rest.count pid := List.count_pos_iff.mpr hin
            rw [List.count_cons, if_pos (beq_self_eq_true pid)]
            omega
          · exact Or.inr ⟨by simp [hin], hs2⟩

theorem scan_directory_all_pages_nodup (u : Bool) (path : String) (fs : FST) :
    ∀ effs t, scan_directory u path fs = (effs, .ok t) → pages_nodup t := by
  refine scan_directory.induct u
    (fun path fs => ∀ effs t, scan_directory u path fs = (effs, .ok t) → pages_nodup t)
    (fun path subs => ∀ effs ds, scanSubdirs u path subs = (effs, .ok ds) → pagesNodupList ds)
    ?_ ?_ ?_ ?_ ?_ ?_ ?_ path fs
  · -- subdirs error
    intro path hasLocal gits subs pageIds effs0 e hse ih effs t h
    simp only [scan_directory, hse] at h
    exact absurd (congrArg Prod.snd h) (by simp)
  · -- pages error
    intro path hasLocal gits subs pageIds effs0 ds hsub e hpag ih effs t h
    simp only [scan_directory, hsub, hpag] at h
    exact absurd (congrArg Prod.snd h) (by simp)
  · -- ok
    intro path hasLocal gits subs pageIds effs0 ds hsub ps hpag ih effs t h
    simp only [scan_directory, hsub, hpag] at h
    have ht : Except.ok (DirTree.node path ps ds) = Except.ok t := congrArg Prod.snd h
    injection ht with ht2
    subst ht2
    obtain ⟨hps, hnd, _⟩ := scan_pages_ok_inv pageIds [] [] ps hpag
    have hps2 : ps = pageIds := by simpa using hps
    subst hps2
    exact ⟨hnd, ih effs0 ds hsub⟩
  · intro path effs ds h
    simp only [scanSubdirs] at h
    have := congrArg Prod.snd h
    simp at this
    subst this
    trivial
  · intro path name sub rest subpath hig ih effs ds h
    simp only [scanSubdirs, hig, if_true] at h
    exact ih effs ds h
  · intro path name sub rest subpath hig effs0 e hsd ih effs ds h
    simp only [scanSubdirs, hig, hsd] at h
    exact absurd (congrArg Prod.snd h) (by simp)
  · intro path name sub rest subpath hig effs0 d hsd effs2 r hrest ih1 ih2 effs ds h
    simp only [scanSubdirs, hig, if_false, hsd, hrest] at h
    cases r with
    | error e => exact absurd (congrArg Prod.snd h) (by simp [Except.map])
    | ok ds2 =>
      have h2 := congrArg Prod.snd h
      simp only [Except.map] at h2
      injection h2 with h3
      subst h3
      exact ⟨ih1 effs0 d hsd, ih2 effs2 ds2 hrest⟩

/-- C1: the page loop of `Directory.scan_directory` merges the pages created
by every `Page` plugin for every `Source` into one id-keyed map.  If the
produced page ids are not pairwise distinct, a `DuplicatePageException`
whose message names a colliding id is raised; when the loop completes, the
directory's pages are exactly the produced pages, with pairwise-distinct
ids — and consequently every directory of a fully scanned tree has
pairwise-distinct page ids. -/
theorem scan_directory_duplicate_page_id (ps : List String) :
    (∀ l, scan_pages [] [] ps = .ok l → l = ps ∧ l.Nodup) ∧
    (¬ ps.Nodup → ∃ pid, 2 ≤ ps.count pid ∧
      scan_pages [] [] ps = .error ("Duplicate page id " ++ pid)) ∧
    (∀ u path fs effs t, scan_directory u path fs = (effs, .ok t) →
      pages_nodup t) := by
  refine ⟨?_, ?_, ?_⟩
  · intro l h
    obtain ⟨h1, h2, _⟩ := scan_pages_ok_inv ps [] [] l h
    have : l = ps := by simpa using h1
    subst this
    exact ⟨rfl, h2⟩
  · intro hnd
    obtain ⟨pid, herr, hcase⟩ := scan_pages_dup ps [] [] (fun ⟨h1, _⟩ => hnd h1)
    rcases hcase with hcnt | ⟨_, hseen⟩
    · exact ⟨pid, hcnt, herr⟩
    · exact absurd hseen (by simp)
  · intro u path fs effs t h
    exact scan_directory_all_pages_nodup u path fs effs t h

/-- C1, witness: `["a", "b", "a"]` collides and raises; `["a", "b"]`
scans cleanly. -/
theorem scan_directory_duplicate_page_id_witness :
    (["a", "b"] = ["a", "b"] ∧ (["a", "b"] : List String).Nodup) ∧
    ∃ pid, 2 ≤ (["a", "b", "a"] : List String).count pid ∧
      scan_pages [] [] ["a", "b", "a"] =
        .error ("Duplicate page id " ++ pid) :=
  ⟨(scan_directory_duplicate_page_id ["a", "b"]).1 ["a", "b"] rfl,
   (scan_directory_duplicate_page_id ["a", "b", "a"]).2.1 (by decide)⟩

/-- C3: once a first `Site.scan_site` call has returned normally and bound
`self.root`, any later call — whatever the disk or update flag look like by
then — returns immediately: the state still holds the very same root tree,
and the effect trace is empty (no `Directory` or `Source` constructions, no
git clone or pull, no stage deletion). -/
theorem scan_site_second_call_noop (u1 se1 u2 se2 : Bool) (fs1 fs2 : FST)
    (t : DirTree) (effs : List Eff)
    (_h : scan_site u1 se1 fs1 ⟨none⟩ = (⟨some t⟩, effs)) :
    scan_site u2 se2 fs2 ⟨some t⟩ = (⟨some t⟩, []) := rfl

/-- C3, witness: scanning an empty site then calling again. -/
theorem scan_site_second_call_noop_witness :
    scan_site true true (FST.node false [] [] [])
      ⟨some (DirTree.node "/" [] [])⟩ = (⟨some (DirTree.node "/" [] [])⟩, []) :=
  scan_site_second_call_noop false false true true
    (FST.node false [] [] []) (FST.node false [] [] [])
    (DirTree.node "/" [] []) [Eff.constructDir "/"] rfl

/-- C7: a `GitSource` whose clone directory exists and whose `git_update`
config value is the string `false` launches no git subprocess at all on
construction — no pull and no clone — and `get_source_path` only joins the
existing clone directory with the configured `git_directory`. -/
theorem git_source_no_update_when_false (g : GitCfg) (update : Bool)
    (pindir : String) (h1 : g.existsClone = true)
    (h2 : g.gitUpdateCfg = some "false") :
    gitSourceEffects update g = [] ∧
    git_get_source_path pindir g =
      osPathJoin (osPathJoin (osPathJoin pindir "git")
        (git_repodir g.repo g.branch)) (g.gitDirCfg.getD "") := by
  refine ⟨?_, rfl⟩
  unfold gitSourceEffects
  rw [h1, if_pos rfl, h2]
  simp

/-- C7, witness. -/
theorem git_source_no_update_when_false_witness :
    gitSourceEffects true
      { repo := "u/r", branch := "main", existsClone := true,
        gitUpdateCfg := some "false", gitDirCfg := none } = [] ∧
    git_get_source_path "/top/__pintail__"
      { repo := "u/r", branch := "main", existsClone := true,
        gitUpdateCfg := some "false", gitDirCfg := none } =
      osPathJoin (osPathJoin (osPathJoin "/top/__pintail__" "git")
        (git_repodir "u/r" "main")) "" :=
  git_source_no_update_when_false
    { repo := "u/r", branch := "main", existsClone := true,
      gitUpdateCfg := some "false", gitDirCfg := none } true
    "/top/__pintail__" rfl rfl

/-- C10: `DocBookPage.page_id` is the constant string `index` for every
DocBook primary page; a document root that is a chunk element and lacks
both `id` and `xml:id` is assigned `index` by the id-fixing pass; and any
page list containing `index` twice (a DocBook primary page co-located with
another page of id `index`) makes the scan raise the fatal
duplicate-page-id error. -/
theorem docbook_page_id_always_index :
    (∀ dbp : DocBookPageM, dbp.page_id = "index") ∧
    (∀ t : XNode, t.tag ∈ DOCBOOK_CHUNKS → pyAttrOr t.idAttr t.xmlId = none →
      pyAttrOr (docbook_fixids t).1.idAttr (docbook_fixids t).1.xmlId =
        some "index") ∧
    (∀ ps : List String, 2 ≤ ps.count "index" →
      ∃ pid, scan_pages [] [] ps = .error ("Duplicate page id " ++ pid)) := by
  refine ⟨fun _ => rfl, ?_, ?_⟩
  · intro t hchunk hnone
    obtain ⟨tag, i, x, cs⟩ := t
    simp only [XNode.tag] at hchunk
    simp only [XNode.idAttr, XNode.xmlId] at hnone
    unfold docbook_fixids fixNode
    rw [if_pos hchunk, hnone]
    have hfalsy : i = none ∨ i = some "" := by
      by_contra hcon
      push_neg at hcon
      unfold pyAttrOr at hnone
      rw [if_neg (by tauto)] at hnone
      exact hcon.1 hnone
    by_cases hns : pyStartsWith tag DOCBOOK_NS = true
    · simp only [hns, if_true]
      simp only [XNode.idAttr, XNode.xmlId]
      unfold pyAttrOr
      rcases hfalsy with rfl | rfl <;> simp
    · simp only [hns, if_false]
      simp only [XNode.idAttr, XNode.xmlId]
      unfold pyAttrOr
      simp
  · intro ps hcnt
    have hnd : ¬ ps.Nodup := by
      intro hnodup
      have := List.nodup_iff_count_le_one.mp hnodup "index"
      omega
    obtain ⟨pid, herr, _⟩ := scan_pages_dup ps [] []
      (fun ⟨h1, _⟩ => hnd h1)
    exact ⟨pid, herr⟩

/-- C10, witness: a bare `book` root gets id `index`, and two `index`
pages in one directory raise. -/
theorem docbook_page_id_always_index_witness :
    (pyAttrOr (docbook_fixids (XNode.node "book" none none [])).1.idAttr
      (docbook_fixids (XNode.node "book" none none [])).1.xmlId =
        some "index") ∧
    ∃ pid, scan_pages [] [] ["index", "index"] =
      .error ("Duplicate page id " ++ pid) :=
  ⟨docbook_page_id_always_index.2.1 (XNode.node "book" none none [])
      (by decide) rfl,
   docbook_page_id_always_index.2.2 ["index", "index"] (by decide)⟩

theorem gitSourceEffects_no_delete (u : Bool) (g : GitCfg) :
    Eff.deleteStage ∉ gitSourceEffects u g := by
  unfold gitSourceEffects
  split
  · split
    · simp
    · simp
  · simp

theorem scan_directory_trace_no_delete (u : Bool) (path : String) (fs : FST) :
    Eff.deleteStage ∉ (scan_directory u path fs).1 := by
  refine scan_directory.induct u
    (fun path fs => Eff.deleteStage ∉ (scan_directory u path fs).1)
    (fun path subs => Eff.deleteStage ∉ (scanSubdirs u path subs).1)
    ?_ ?_ ?_ ?_ ?_ ?_ ?_ path fs
  · intro path hasLocal gits subs pageIds effs0 e hse ih
    simp only [scan_directory, hse]
    intro hmem
    rcases (show (∃ g ∈ gits, Eff.deleteStage ∈ gitSourceEffects u g) ∨
        Eff.deleteStage ∈ effs0 by simpa using hmem) with ⟨g, _, hg⟩ | hx
    · exact gitSourceEffects_no_delete u g hg
    · rw [hse] at ih
      exact ih hx
  · intro path hasLocal gits subs pageIds effs0 ds hsub e hpag ih
    simp only [scan_directory, hsub, hpag]
    intro hmem
    rcases (show (∃ g ∈ gits, Eff.deleteStage ∈ gitSourceEffects u g) ∨
        Eff.deleteStage ∈ effs0 by simpa using hmem) with ⟨g, _, hg⟩ | hx
    · exact gitSourceEffects_no_delete u g hg
    · rw [hsub] at ih
      exact ih hx
  · intro path hasLocal gits subs pageIds effs0 ds hsub ps hpag ih
    simp only [scan_directory, hsub, hpag]
    intro hmem
    rcases (show (∃ g ∈ gits, Eff.deleteStage ∈ gitSourceEffects u g) ∨
        Eff.deleteStage ∈ effs0 by simpa using hmem) with ⟨g, _, hg⟩ | hx
    · exact gitSourceEffects_no_delete u g hg
    · rw [hsub] at ih
      exact ih hx
  · intro path
    simp [scanSubdirs]
  · intro path name sub rest subpath hig ih
    simpa only [scanSubdirs, hig, if_true] using ih
  · intro path name sub rest subpath hig effs0 e hsd ih
    simp only [scanSubdirs, hig, if_false, hsd]
    rw [hsd] at ih
    exact ih
  · intro path name sub rest subpath hig effs0 d hsd effs2 r hrest ih1 ih2
    simp only [scanSubdirs, hig, if_false, hsd, hrest]
    intro hmem
    rcases List.mem_append.mp (by simpa using hmem) with hx | hx
    · rw [hsd] at ih1; exact ih1 hx
    · rw [hrest] at ih2; exact ih2 hx

theorem scan_directory_trace_head (u : Bool) (path : String) (fs : FST) :
    ∃ tail, (scan_directory u path fs).1 = Eff.constructDir path :: tail := by
  obtain ⟨hasLocal, gits, subs, pageIds⟩ := fs
  unfold scan_directory
  rcases hs : scanSubdirs u path subs with ⟨effs, r⟩
  cases r with
  | error e => exact ⟨_, rfl⟩
  | ok ds =>
    cases hp : scan_pages [] [] pageIds with
    | error e => exact ⟨_, rfl⟩
    | ok ps => exact ⟨_, rfl⟩

/-- C9, counterexample: on a site with a configured git source whose clone
directory already exists (updates enabled), the first `scan_site` call also
launches `git pull` on that pre-existing clone — a mutation of pre-existing
on-disk state beyond the stage deletion. -/
theorem scan_site_mutates_preexisting_clone :
    scan_site true true fsC9 ⟨none⟩ =
      (⟨some (DirTree.node "/" [] [])⟩,
       [Eff.deleteStage, Eff.constructDir "/", Eff.constructSource "/",
        Eff.gitPull "u!r@@main"]) ∧
    Eff.gitPull "u!r@@main" ∈
      [Eff.deleteStage, Eff.constructDir "/", Eff.constructSource "/",
       Eff.gitPull "u!r@@main"] ∧
    Eff.gitPull "u!r@@main" ≠ Eff.deleteStage :=
  ⟨rfl, by decide, by decide⟩

/-- C9, amended: on the first `scan_site` call, an existing stage directory
is deleted before anything else — in particular before the root `Directory`
is constructed — and the rest of the scan never deletes the stage; with no
stage on disk nothing is deleted at all; and subsequent calls perform no
effect and leave the `Site` state unchanged.  The deletion is, however, not
the only mutation of pre-existing on-disk state: constructing git sources
during the scan may pull into pre-existing clones. -/
theorem scan_site_stage_deletion (u : Bool) (fs : FST) :
    (∀ st effs, scan_site u true fs ⟨none⟩ = (st, effs) →
      effs = Eff.deleteStage :: (scan_directory u "/" fs).1 ∧
      Eff.deleteStage ∉ (scan_directory u "/" fs).1 ∧
      ∃ tail, (scan_directory u "/" fs).1 = Eff.constructDir "/" :: tail) ∧
    (∀ st effs, scan_site u false fs ⟨none⟩ = (st, effs) →
      Eff.deleteStage ∉ effs) ∧
    (∀ (u2 se2 : Bool) (fs2 : FST) (t : DirTree),
      scan_site u2 se2 fs2 ⟨some t⟩ = (⟨some t⟩, [])) := by
  refine ⟨?_, ?_, fun _ _ _ _ => rfl⟩
  · intro st effs h
    unfold scan_site at h
    rcases hs : scan_directory u "/" fs with ⟨effs0, r⟩
    rw [hs] at h
    have heff : effs = Eff.deleteStage :: effs0 := by
      cases r <;> · have h2 := congrArg Prod.snd h
                    simp at h2
                    exact h2.symm
    refine ⟨by simpa [hs] using heff, ?_, ?_⟩
    · have := scan_directory_trace_no_delete u "/" fs
      rwa [hs] at this
    · have := scan_directory_trace_head u "/" fs
      rwa [hs] at this
  · intro st effs h
    unfold scan_site at h
    rcases hs : scan_directory u "/" fs with ⟨effs0, r⟩
    rw [hs] at h
    have heff : effs = effs0 := by
      cases r <;> · have h2 := congrArg Prod.snd h
                    simp at h2
                    exact h2.symm
    subst heff
    have := scan_directory_trace_no_delete u "/" fs
    rwa [hs] at this

/-- C9, amended, witness: an empty site with a stage on disk. -/
theorem scan_site_stage_deletion_witness :
    (scan_site false true (FST.node false [] [] []) ⟨none⟩ =
      (⟨some (DirTree.node "/" [] [])⟩,
        [Eff.deleteStage, Eff.constructDir "/"])) ∧
    [Eff.deleteStage, Eff.constructDir "/"] =
      Eff.deleteStage :: (scan_directory false "/" (FST.node false [] [] [])).1 :=
  ⟨rfl, ((scan_site_stage_deletion false (FST.node false [] [] [])).1
    ⟨some (DirTree.node "/" [] [])⟩
    [Eff.deleteStage, Eff.constructDir "/"] rfl).1⟩

theorem noslash_char_append :
    ∀ (a1 a2 b1 b2 : List Char), Char.ofNat 47 ∉ a1 → Char.ofNat 47 ∉ a2 →
      a1 ++ Char.ofNat 47 :: b1 = a2 ++ Char.ofNat 47 :: b2 →
      a1 = a2 ∧ b1 = b2 := by
  intro a1
  induction a1 with
  | nil =>
    intro a2 b1 b2 h1 h2 he
    cases a2 with
    | nil => simpa using he
    | cons c a2t =>
      simp only [List.nil_append, List.cons_append, List.cons.injEq] at he
      exact absurd (he.1 ▸ List.mem_cons_self c a2t) h2
  | cons c a1t ih =>
    intro a2 b1 b2 h1 h2 he
    cases a2 with
    | nil =>
      simp only [List.nil_append, List.cons_append, List.cons.injEq] at he
      exact absurd (he.1.symm ▸ List.mem_cons_self c a1t) h1
    | cons c2 a2t =>
      simp only [List.cons_append, List.cons.injEq] at he
      obtain ⟨rfl, he2⟩ := he
      obtain ⟨ha, hb⟩ := ih a2t b1 b2 (fun hm => h1 (List.mem_cons_of_mem _ hm))
        (fun hm => h2 (List.mem_cons_of_mem _ hm)) he2
      exact ⟨by rw [ha], hb⟩

theorem strAppend_left_cancel {a b c : String} (h : a ++ b = a ++ c) : b = c := by
  apply String.ext
  have := congrArg String.data h
  simp only [String.data_append] at this
  exact List.append_cancel_left this

theorem noslash_seg_eq {path n1 n2 w1 w2 : String}
    (h1 : noSlash n1) (h2 : noSlash n2)
    (he : path ++ n1 ++ "/" ++ w1 = path ++ n2 ++ "/" ++ w2) :
    n1 = n2 ∧ w1 = w2 := by
  have hd := congrArg String.data he
  simp only [String.data_append, List.append_assoc] at hd
  have hd2 := List.append_cancel_left hd
  simp only [List.singleton_append] at hd2
  obtain ⟨ha, hb⟩ := noslash_char_append n1.data n2.data w1.data w2.data h1 h2 hd2
  exact ⟨String.ext ha, String.ext hb⟩

theorem noslash_ne_seg {path pid n w : String} (hp : noSlash pid)
    (he : path ++ pid = path ++ n ++ "/" ++ w) : False := by
  have hd := congrArg String.data he
  simp only [String.data_append, List.append_assoc] at hd
  have hd2 := List.append_cancel_left hd
  apply hp
  rw [hd2]
  simp

theorem scan_directory_site_id_nodup (u : Bool) (path : String) (fs : FST) :
    WFScanInput fs → ∀ effs t, scan_directory u path fs = (effs, .ok t) →
      ((site_pages t).map site_id).Nodup ∧
      ∀ s ∈ (site_pages t).map site_id, ∃ w, s = path ++ w := by
  refine scan_directory.induct u
    (fun path fs => WFScanInput fs → ∀ effs t,
      scan_directory u path fs = (effs, .ok t) →
      ((site_pages t).map site_id).Nodup ∧
      ∀ s ∈ (site_pages t).map site_id, ∃ w, s = path ++ w)
    (fun path subs =>
      (∀ p ∈ subs, WFScanInput p.2) → (subs.map Prod.fst).Nodup →
      (∀ nm ∈ subs.map Prod.fst, nm ≠ "" ∧ noSlash nm) →
      ∀ effs ds, scanSubdirs u path subs = (effs, .ok ds) →
        ((sitePagesList ds).map site_id).Nodup ∧
        ∀ s ∈ (sitePagesList ds).map site_id,
          ∃ n w, n ∈ subs.map Prod.fst ∧ s = path ++ n ++ "/" ++ w)
    ?_ ?_ ?_ ?_ ?_ ?_ ?_ path fs
  · intro path hasLocal gits subs pageIds effs0 e hse _ _ effs t h
    simp only [scan_directory, hse] at h
    exact absurd (congrArg Prod.snd h) (by simp)
  · intro path hasLocal gits subs pageIds effs0 ds hsub e hpag _ _ effs t h
    simp only [scan_directory, hsub, hpag] at h
    exact absurd (congrArg Prod.snd h) (by simp)
  · intro path hasLocal gits subs pageIds effs0 ds hsub ps hpag ih hwf effs t h
    simp only [scan_directory, hsub, hpag] at h
    have ht : Except.ok (DirTree.node path ps ds) = Except.ok t := congrArg Prod.snd h
    injection ht with ht2
    subst ht2
    cases hwf with
    | node hsubs hnames hne hpids =>
      obtain ⟨hps, hnd, _⟩ := scan_pages_ok_inv pageIds [] [] ps hpag
      have hps2 : ps = pageIds := by simpa using hps
      subst hps2
      obtain ⟨ihn, ihp⟩ := ih hsubs hnames hne effs0 ds hsub
      have hsplit : (site_pages (DirTree.node path ps ds)).map site_id =
          ps.map (fun pid => path ++ pid) ++ (sitePagesList ds).map site_id := by
        simp [site_pages, site_id, List.map_map, Function.comp]
      rw [hsplit]
      constructor
      · refine List.Nodup.append ?_ ihn ?_
        · exact hnd.map (fun a b hab => strAppend_left_cancel hab)
        · intro a ha hb
          obtain ⟨pid, hpid, rfl⟩ := List.mem_map.mp ha
          obtain ⟨n, w, _, hseg⟩ := ihp _ hb
          exact noslash_ne_seg (hpids pid hpid) hseg
      · intro s hs
        rcases List.mem_append.mp hs with hs2 | hs2
        · obtain ⟨pid, _, rfl⟩ := List.mem_map.mp hs2
          exact ⟨pid, rfl⟩
        · obtain ⟨n, w, _, hseg⟩ := ihp s hs2
          exact ⟨n ++ ("/" ++ w), by
            rw [hseg, String.append_assoc, String.append_assoc]⟩
  · intro path _ _ _ effs ds h
    simp only [scanSubdirs] at h
    have h2 := congrArg Prod.snd h
    simp only at h2
    injection h2 with h3
    subst h3
    simp [sitePagesList]
  · intro path name sub rest subpath hig ih hsubs hnames hne effs ds h
    simp only [scanSubdirs, hig, if_true] at h
    have ihr := ih (fun p hp => hsubs p (by simp [hp]))
      (by simpa using (List.nodup_cons.mp (by simpa using hnames)).2)
      (fun nm hnm => hne nm (by simp; right; simpa using hnm))
      effs ds h
    refine ⟨ihr.1, ?_⟩
    intro s hs
    obtain ⟨n, w, hn, hseg⟩ := ihr.2 s hs
    exact ⟨n, w, by simp; right; simpa using hn, hseg⟩
  · intro path name sub rest subpath hig effs0 e hsd _ _ _ _ effs ds h
    simp only [scanSubdirs, hig, if_false, hsd] at h
    exact absurd (congrArg Prod.snd h) (by simp)
  · intro path name sub rest subpath hig effs0 d hsd effs2 r hrest ih1 ih2
      hsubs hnames hne effs ds h
    simp only [scanSubdirs, hig, if_false, hsd, hrest] at h
    cases r with
    | error e => exact absurd (congrArg Prod.snd h) (by simp [Except.map])
    | ok ds2 =>
      have h2 := congrArg Prod.snd h
      simp only [Except.map] at h2
      injection h2 with h3
      subst h3
      have hnamec : name ∉ rest.map Prod.fst ∧ (rest.map Prod.fst).Nodup := by
        simp only [List.map_cons] at hnames
        exact List.nodup_cons.mp hnames
      obtain ⟨ih1n, ih1p⟩ := ih1 (hsubs (name, sub) (by simp)) effs0 d hsd
      obtain ⟨ih2n, ih2p⟩ := ih2 (fun p hp => hsubs p (by simp [hp]))
        hnamec.2 (fun nm hnm => hne nm (by simp; right; simpa using hnm))
        effs2 ds2 hrest
      have hsplit : (sitePagesList (d :: ds2)).map site_id =
          (site_pages d).map site_id ++ (sitePagesList ds2).map site_id := by
        simp [sitePagesList]
      rw [hsplit]
      constructor
      · refine List.Nodup.append ih1n ih2n ?_
        intro a ha hb
        obtain ⟨w1, hw1⟩ := ih1p a ha
        obtain ⟨n2, w2, hn2, hseg2⟩ := ih2p a hb
        have hname_ns : noSlash name := (hne name (by simp)).2
        have hn2_ns : noSlash n2 := (hne n2 (by simp; right; simpa using hn2)).2
        have heq : path ++ name ++ "/" ++ w1 = path ++ n2 ++ "/" ++ w2 := by
          rw [← hw1, ← hseg2]
        obtain ⟨hnn, _⟩ := noslash_seg_eq hname_ns hn2_ns heq
        exact hnamec.1 (hnn ▸ hn2)
      · intro s hs
        rcases List.mem_append.mp hs with hs2 | hs2
        · obtain ⟨w, hw⟩ := ih1p s hs2
          exact ⟨name, w, by simp, hw⟩
        · obtain ⟨n, w, hn, hseg⟩ := ih2p s hs2
          exact ⟨n, w, by simp; right; simpa using hn, hseg⟩
/-- C2, counterexample: page ids are arbitrary strings (a Mallard page's
`id` attribute), and nothing stops one from containing a slash.  Scanning
`fsC2` succeeds and yields two distinct pages — `b/index` in `/a/` and
`index` in `/a/b/` — whose `site_id` values are both `/a/b/index`. -/
theorem site_id_collision :
    scan_directory false "/" fsC2 =
      ([Eff.constructDir "/", Eff.constructSource "/",
        Eff.constructDir "/a/", Eff.constructSource "/a/",
        Eff.constructDir "/a/b/", Eff.constructSource "/a/b/"],
       .ok (DirTree.node "/" []
        [DirTree.node "/a/" ["b/index"]
          [DirTree.node "/a/b/" ["index"] []]])) ∧
    ("/a/", "b/index") ∈ site_pages (DirTree.node "/" []
        [DirTree.node "/a/" ["b/index"]
          [DirTree.node "/a/b/" ["index"] []]]) ∧
    ("/a/b/", "index") ∈ site_pages (DirTree.node "/" []
        [DirTree.node "/a/" ["b/index"]
          [DirTree.node "/a/b/" ["index"] []]]) ∧
    (("/a/", "b/index") : String × String) ≠ ("/a/b/", "index") ∧
    site_id ("/a/", "b/index") = site_id ("/a/b/", "index") :=
  ⟨rfl, by simp [site_pages, sitePagesList], by simp [site_pages, sitePagesList],
   by decide, rfl⟩

/-- C2, amended: provided no page id contains a slash and the subdirectory
names feeding each directory are pairwise distinct (true for a single
filesystem source), any two distinct pages of a scanned tree have distinct
`site_id` values (`directory.path + page_id`). -/
theorem site_id_injective (u : Bool) (fs : FST) (hwf : WFScanInput fs)
    (effs : List Eff) (t : DirTree)
    (h : scan_directory u "/" fs = (effs, .ok t)) :
    (site_pages t).Pairwise (fun p q => site_id p ≠ site_id q) := by
  have hnd := (scan_directory_site_id_nodup u "/" fs hwf effs t h).1
  rw [List.Nodup, List.pairwise_map] at hnd
  exact hnd

/-- C2, amended, witness: a two-directory site with slash-free page ids. -/
theorem site_id_injective_witness :
    (site_pages (DirTree.node "/" ["index"] [DirTree.node "/a/" ["index"] []])).Pairwise
      (fun p q => site_id p ≠ site_id q) :=
  site_id_injective false
    (FST.node true [] [("a", FST.node true [] [] ["index"])] ["index"])
    (WFScanInput.node
      (fun p hp => by
        have : p = ("a", FST.node true [] [] ["index"]) := by simpa using hp
        rw [this]
        exact WFScanInput.node (by simp) (by simp) (by simp) (by
          intro pid hpid
          have : pid = "index" := by simpa using hpid
          rw [this]
          unfold noSlash
          decide))
      (by simp) (by
        intro nm hnm
        have : nm = "a" := by simpa using hnm
        rw [this]
        exact ⟨by decide, by unfold noSlash; decide⟩) (by
        intro pid hpid
        have : pid = "index" := by simpa using hpid
        rw [this]
        unfold noSlash
        decide))
    [Eff.constructDir "/", Eff.constructSource "/",
     Eff.constructDir "/a/", Eff.constructSource "/a/"]
    (DirTree.node "/" ["index"] [DirTree.node "/a/" ["index"] []]) rfl

set_option maxRecDepth 4096 in
theorem digitChar_toNat : ∀ k, k < 10 → (Nat.digitChar k).toNat = 48 + k := by
  decide

theorem decChars_snoc (l : List Char) (d : Char) :
    decChars (l ++ [d]) = decChars l * 10 + (d.toNat - 48) := by
  simp [decChars, List.foldl_append]

theorem toDigitsCore_append10 :
    ∀ (fuel n : Nat) (ds : List Char),
      Nat.toDigitsCore 10 fuel n ds = Nat.toDigitsCore 10 fuel n [] ++ ds := by
  intro fuel
  induction fuel with
  | zero => intro n ds; simp [Nat.toDigitsCore]
  | succ f ih =>
    intro n ds
    simp only [Nat.toDigitsCore]
    by_cases h : n / 10 = 0
    · simp [h]
    · simp only [h, if_false]
      rw [ih (n / 10) [Nat.digitChar (n % 10)],
          ih (n / 10) (Nat.digitChar (n % 10) :: ds)]
      simp

theorem decChars_toDigitsCore :
    ∀ (fuel n : Nat), n < fuel →
      decChars (Nat.toDigitsCore 10 fuel n []) = n := by
  intro fuel
  induction fuel with
  | zero => intro n h; omega
  | succ f ih =>
    intro n h
    simp only [Nat.toDigitsCore]
    by_cases hd : n / 10 = 0
    · simp only [hd, if_true]
      have hlt : n < 10 := by omega
      have hmod : n % 10 = n := Nat.mod_eq_of_lt hlt
      rw [hmod]
      have hdigit := digitChar_toNat n hlt
      simp [decChars, hdigit]
    · simp only [hd, if_false]
      rw [toDigitsCore_append10, decChars_snoc]
      have hn10 : 10 ≤ n := by
        by_contra hc
        exact hd (Nat.div_eq_of_lt (by omega))
      have hih := ih (n / 10) (by omega)
      rw [hih, digitChar_toNat (n % 10) (Nat.mod_lt n (by omega))]
      omega

theorem decChars_toString (n : Nat) : decChars (toString n).data = n := by
  show decChars (Nat.repr n).data = n
  unfold Nat.repr
  have : (Nat.toDigits 10 n).asString.data = Nat.toDigits 10 n := rfl
  rw [this]
  unfold Nat.toDigits
  exact decChars_toDigitsCore (n + 1) n (by omega)

theorem pageStr_inj {m n : Nat} (h : pageStr m = pageStr n) : m = n := by
  have hd := congrArg String.data h
  simp only [pageStr, String.data_append] at hd
  have h2 := List.append_cancel_left hd
  have h3 : decChars (toString m).data = decChars (toString n).data := by rw [h2]
  rwa [decChars_toString, decChars_toString] at h3

theorem nextFreeAux_ge (used : List String) :
    ∀ (fuel n : Nat), n ≤ nextFreeAux used fuel n := by
  intro fuel
  induction fuel with
  | zero => intro n; simp [nextFreeAux]
  | succ f ih =>
    intro n
    unfold nextFreeAux
    by_cases h : pageStr n ∈ used
    · rw [if_pos h]
      exact le_trans (by omega) (ih (n + 1))
    · rw [if_neg h]

theorem nextFreeAux_spec (used : List String) :
    ∀ (fuel n : Nat),
      pageStr (nextFreeAux used fuel n) ∉ used ∨
        ∀ i < fuel, pageStr (n + i) ∈ used := by
  intro fuel
  induction fuel with
  | zero => intro n; exact Or.inr (by omega)
  | succ f ih =>
    intro n
    unfold nextFreeAux
    by_cases h : pageStr n ∈ used
    · rw [if_pos h]
      rcases ih (n + 1) with hfree | hall
      · exact Or.inl hfree
      · refine Or.inr ?_
        intro i hi
        match i with
        | 0 => simpa using h
        | j + 1 =>
          have := hall j (by omega)
          have harith : n + 1 + j = n + (j + 1) := by omega
          rwa [harith] at this
    · rw [if_neg h]
      exact Or.inl h

theorem nextFree_not_mem (used : List String) (n : Nat) :
    pageStr (nextFree used n) ∉ used := by
  unfold nextFree
  rcases nextFreeAux_spec used (used.length + 1) n with hfree | hall
  · exact hfree
  · exfalso
    have hsub : (List.range (used.length + 1)).map (fun i => pageStr (n + i)) ⊆
        used := by
      intro s hs
      obtain ⟨i, hi, rfl⟩ := List.mem_map.mp hs
      exact hall i (List.mem_range.mp hi)
    have hnd : ((List.range (used.length + 1)).map (fun i => pageStr (n + i))).Nodup := by
      refine (List.nodup_range _).map ?_
      intro a b hab
      have := pageStr_inj hab
      omega
    have := (List.subperm_of_subset hnd hsub).length_le
    simp at this

theorem nextFree_gt {used : List String} {n : Nat} (h : pageStr n ∈ used) :
    n + 1 ≤ nextFree used n := by
  unfold nextFree
  have hlen : used.length + 1 = (used.length) + 1 := rfl
  rw [hlen]
  unfold nextFreeAux
  rw [if_pos h]
  exact nextFreeAux_ge used used.length (n + 1)

theorem pageStr_ne_empty (m : Nat) : pageStr m ≠ "" := by
  intro h
  have := congrArg String.data h
  simp [pageStr] at this

theorem pageStr_ne_index (m : Nat) : pageStr m ≠ "index" := by
  intro h
  have hd := congrArg String.data h
  simp only [pageStr, String.data_append] at hd
  have : ("page".data ++ (toString m).data).head? = ("index".data).head? := by
    rw [hd]
  simp at this

theorem nextFree_ge (used : List String) (n : Nat) : n ≤ nextFree used n :=
  nextFreeAux_ge used (used.length + 1) n

theorem pyAttrOr_none_left {i x : Option String} (h : pyAttrOr i x = none) :
    i = none ∨ i = some "" := by
  unfold pyAttrOr at h
  by_cases hc : i = none ∨ i = some ""
  · exact hc
  · rw [if_neg hc] at h
    exact absurd h (by tauto)

theorem pyAttrOr_set_ne_none {i x : Option String} (c : String)
    (hc : c ≠ "") (h : pyAttrOr i x = none) :
    pyAttrOr i (some c) = some c ∧ pyAttrOr (some c) x = some c := by
  constructor
  · unfold pyAttrOr
    rw [if_pos (pyAttrOr_none_left h)]
  · unfold pyAttrOr
    rw [if_neg (by simp [hc])]

theorem fixNode_inv (isRoot : Bool) (st : FixSt) (n : XNode) :
    ∃ ms idx, FixInv isRoot st (fixNode isRoot st n).2 ms idx ∧
      ((ms = [] ∧ idx = []) → fixNode isRoot st n = (n, st)) ∧
      allFixed (fixNode isRoot st n).1 := by
  refine fixNode.induct
    (fun isRoot st n =>
      ∃ ms idx, FixInv isRoot st (fixNode isRoot st n).2 ms idx ∧
        ((ms = [] ∧ idx = []) → fixNode isRoot st n = (n, st)) ∧
        allFixed (fixNode isRoot st n).1)
    (fun st cs =>
      ∃ ms, FixInv false st (fixList st cs).2 ms [] ∧
        (ms = [] → fixList st cs = (cs, st)) ∧
        allFixedList (fixList st cs).1)
    ?_ ?_ ?_ ?_ ?_ isRoot st n
  · -- chunk element with an existing id
    intro isRoot st t idAttr xmlId children hchunk val hattr cs2 st2 hfl ih
    have hstep : fixNode isRoot st (XNode.node t idAttr xmlId children) =
        (XNode.node t idAttr xmlId cs2, st2) := by
      unfold fixNode
      rw [if_pos hchunk, hattr, hfl]
    obtain ⟨ms, hinv, hpres, hfix⟩ := ih
    rw [hfl] at hinv hpres hfix
    refine ⟨ms, [], ?_, ?_, ?_⟩
    · rw [hstep]
      obtain ⟨h1, _, h3, h4, h5, h6, h7⟩ := hinv
      exact ⟨h1, Or.inl rfl, h3, h4, h5, h6, h7⟩
    · intro ⟨hms, _⟩
      rw [hstep]
      have := hpres hms
      injection this with h1 h2
      rw [h1, h2]
    · rw [hstep]
      intro _
      exact ⟨by rw [hattr]; simp, hfix⟩
  · -- chunk element lacking an id: synthesize
    intro isRoot st t idAttr xmlId children hchunk hattr chunkid st1 hcs st2
      i2 x2 hix cs2 st3 hfl ih
    obtain ⟨msL, hinvL0, hpresL0, hfixL0⟩ := ih
    have hinvL : FixInv false st2 st3 msL [] := by
      rw [hfl] at hinvL0; exact hinvL0
    have hfixL : allFixedList cs2 := by
      rw [hfl] at hfixL0; exact hfixL0
    obtain ⟨hL1, _, hL3, hL4, hL5, hL6, hL7⟩ := hinvL
    simp only [List.nil_append] at hL1
    have hstep : fixNode isRoot st (XNode.node t idAttr xmlId children) =
        (XNode.node t i2 x2 cs2, st3) := by
      unfold fixNode
      rw [if_pos hchunk, hattr]
      dsimp only
      rw [hcs]
      dsimp only
      rw [hix]
      dsimp only
      rw [hfl]
    have hchunkid_ne : chunkid ≠ "" := by
      cases isRoot with
      | true =>
        have : ("index", st) = (chunkid, st1) := by simpa using hcs
        injection this with h1 _
        rw [← h1]
        simp
      | false =>
        have : (pageStr (nextFree st.used st.fixid),
            { fixid := nextFree st.used st.fixid, fixed := st.fixed,
              used := st.used : FixSt }) = (chunkid, st1) := by
          simpa using hcs
        injection this with h1 _
        rw [← h1]
        exact pageStr_ne_empty _
    have hattr_set : pyAttrOr i2 x2 = some chunkid := by
      obtain ⟨hset1, hset2⟩ := pyAttrOr_set_ne_none chunkid hchunkid_ne hattr
      by_cases hns : pyStartsWith t DOCBOOK_NS = true
      · rw [if_pos hns] at hix
        injection hix with h1 h2
        rw [← h1, ← h2]
        exact hset1
      · rw [if_neg hns] at hix
        injection hix with h1 h2
        rw [← h1, ← h2]
        exact hset2
    have hallfixed : allFixed (XNode.node t i2 x2 cs2) := by
      intro _
      exact ⟨by rw [hattr_set]; simp, hfixL⟩
    cases isRoot with
    | true =>
      have hpair : ("index", st) = (chunkid, st1) := by simpa using hcs
      injection hpair with h1 h2
      subst h1
      subst h2
      refine ⟨msL, ["index"], ?_, ?_, ?_⟩
      · rw [hstep]
        refine ⟨?_, Or.inr ⟨rfl, rfl⟩, ?_, hL4, ?_, ?_, ?_⟩
        · show st3.used = msL.map pageStr ++ (["index"] ++ st.used)
          rw [hL1]
          rfl
        · intro m hm
          obtain ⟨hnotin, hge⟩ := hL3 m hm
          refine ⟨?_, hge⟩
          intro hmem
          exact hnotin (List.mem_cons_of_mem _ hmem)
        · show (msL = [] ∧ st3.fixid = st.fixid) ∨ msL.head? = some st3.fixid
          exact hL5
        · intro hin
          exact hL6 (List.mem_cons_of_mem _ hin)
        · constructor
          · intro _
            exact Or.inr (Or.inr (by simp))
          · intro _
            exact hL7.mpr (Or.inl rfl)
      · intro ⟨_, hidx⟩
        exact absurd hidx (by simp)
      · rw [hstep]
        exact hallfixed
    | false =>
      have hpair : (pageStr (nextFree st.used st.fixid),
          { fixid := nextFree st.used st.fixid, fixed := st.fixed,
            used := st.used : FixSt }) = (chunkid, st1) := by
        simpa using hcs
      injection hpair with h1 h2
      subst h1
      subst h2
      have hfix2 : st2.fixid = nextFree st.used st.fixid := rfl
      rw [hfix2] at hL6
      refine ⟨msL ++ [nextFree st.used st.fixid], [], ?_, ?_, ?_⟩
      · rw [hstep]
        refine ⟨?_, Or.inl rfl, ?_, ?_, ?_, ?_, ?_⟩
        · show st3.used = (msL ++ [nextFree st.used st.fixid]).map pageStr ++
            ([] ++ st.used)
          rw [hL1]
          simp [List.map_append]
        · intro m hm
          rcases List.mem_append.mp hm with hmL | hmS
          · obtain ⟨hnotin, hge⟩ := hL3 m hmL
            refine ⟨?_, ?_⟩
            · intro hmem
              exact hnotin (List.mem_cons_of_mem _ hmem)
            · exact le_trans (nextFree_ge st.used st.fixid) hge
          · have hmeq : m = nextFree st.used st.fixid := by simpa using hmS
            subst hmeq
            exact ⟨nextFree_not_mem st.used st.fixid, nextFree_ge st.used st.fixid⟩
        · refine List.chain'_append.mpr ⟨hL4, List.chain'_singleton _, ?_⟩
          intro x hx y hy
          have hym : y = nextFree st.used st.fixid := by
            have : ([nextFree st.used st.fixid].head? : Option Nat) = some y := hy
            simpa using this.symm
          subst hym
          have hmem2 : pageStr (nextFree st.used st.fixid) ∈
              (pageStr (nextFree st.used st.fixid) :: st.used) := by simp
          have := hL6 hmem2 x (List.mem_of_mem_getLast? hx)
          omega
        · refine Or.inr ?_
          cases hmsL : msL with
          | nil =>
            rcases hL5 with ⟨_, heq⟩ | hhead
            · simp [heq]
            · rw [hmsL] at hhead; cases hhead
          | cons b msL2 =>
            rcases hL5 with ⟨hnil, _⟩ | hhead
            · rw [hmsL] at hnil; cases hnil
            · rw [hmsL] at hhead
              simpa using hhead
        · intro hin m hm
          have hgt : st.fixid + 1 ≤ nextFree st.used st.fixid := nextFree_gt hin
          rcases List.mem_append.mp hm with hmL | hmS
          · have hmem2 : pageStr (nextFree st.used st.fixid) ∈
                (pageStr (nextFree st.used st.fixid) :: st.used) := by simp
            have := hL6 hmem2 m hmL
            omega
          · have hmeq : m = nextFree st.used st.fixid := by simpa using hmS
            omega
        · constructor
          · intro _
            refine Or.inr (Or.inl ?_)
            simp
          · intro _
            exact hL7.mpr (Or.inl rfl)
      · intro ⟨hms, _⟩
        exact absurd hms (by simp)
      · rw [hstep]
        exact hallfixed
  · -- non-chunk element: untouched
    intro isRoot st t idAttr xmlId children hnot
    have hstep : fixNode isRoot st (XNode.node t idAttr xmlId children) =
        (XNode.node t idAttr xmlId children, st) := by
      unfold fixNode
      rw [if_neg hnot]
    refine ⟨[], [], ?_, fun _ => hstep, ?_⟩
    · rw [hstep]
      exact ⟨by simp, Or.inl rfl, by simp, by simp, Or.inl ⟨rfl, rfl⟩,
        by simp, by simp⟩
    · rw [hstep]
      intro hmem
      exact absurd hmem hnot
  · -- empty child list
    intro st
    have hstep : fixList st [] = ([], st) := by unfold fixList; rfl
    refine ⟨[], ?_, fun _ => hstep, ?_⟩
    · rw [hstep]
      exact ⟨by simp, Or.inl rfl, by simp, by simp, Or.inl ⟨rfl, rfl⟩,
        by simp, by simp⟩
    · rw [hstep]
      trivial
  · -- cons child list
    intro st c cs c2 stA hfn cs2 stB hfl ih1 ih2
    have hstep : fixList st (c :: cs) = (c2 :: cs2, stB) := by
      unfold fixList
      rw [hfn]
      dsimp only
      rw [hfl]
    obtain ⟨msA, idx, hinvA0, hpresA0, hfixA0⟩ := ih1
    have hinvA : FixInv false st stA msA idx := by
      rw [hfn] at hinvA0; exact hinvA0
    have hpresA : (msA = [] ∧ idx = []) → (c2, stA) = (c, st) := by
      rw [hfn] at hpresA0; exact hpresA0
    have hfixA : allFixed c2 := by
      rw [hfn] at hfixA0; exact hfixA0
    obtain ⟨hA1, hA2, hA3, hA4, hA5, hA6, hA7⟩ := hinvA
    have hidx : idx = [] := by
      rcases hA2 with h | ⟨hfalse, _⟩
      · exact h
      · exact absurd hfalse (by simp)
    subst hidx
    simp only [List.nil_append] at hA1
    obtain ⟨msB, hinvB0, hpresB0, hfixB0⟩ := ih2
    have hinvB : FixInv false stA stB msB [] := by
      rw [hfl] at hinvB0; exact hinvB0
    have hpresB : msB = [] → (cs2, stB) = (cs, stA) := by
      rw [hfl] at hpresB0; exact hpresB0
    have hfixB : allFixedList cs2 := by
      rw [hfl] at hfixB0; exact hfixB0
    obtain ⟨hB1, _, hB3, hB4, hB5, hB6, hB7⟩ := hinvB
    simp only [List.nil_append] at hB1
    have hAfix : st.fixid ≤ stA.fixid := by
      rcases hA5 with ⟨_, heq⟩ | hhead
      · omega
      · have hmem := List.mem_of_mem_head? (Option.mem_def.mpr hhead)
        exact (hA3 stA.fixid hmem).2
    have hsub : ∀ s, s ∈ st.used → s ∈ stA.used := by
      intro s hs
      rw [hA1]
      exact List.mem_append_right _ hs
    have hBgt : pageStr stA.fixid ∈ stA.used → ∀ k ∈ msB, stA.fixid < k := hB6
    refine ⟨msB ++ msA, ?_, ?_, ?_⟩
    · rw [hstep]
      refine ⟨?_, Or.inl rfl, ?_, ?_, ?_, ?_, ?_⟩
      · show stB.used = (msB ++ msA).map pageStr ++ ([] ++ st.used)
        rw [hB1, hA1]
        simp [List.map_append]
      · intro m hm
        rcases List.mem_append.mp hm with hmB | hmA
        · refine ⟨?_, le_trans hAfix (hB3 m hmB).2⟩
          intro hmem
          exact (hB3 m hmB).1 (hsub _ hmem)
        · exact hA3 m hmA
      · refine List.chain'_append.mpr ⟨hB4, hA4, ?_⟩
        intro x hx y hy
        have hyA : msA.head? = some y := hy
        rcases hA5 with ⟨hnil, _⟩ | hhead
        · rw [hnil] at hyA; cases hyA
        · have hyfix : y = stA.fixid := by
            rw [hyA] at hhead
            injection hhead
          have hyin : pageStr stA.fixid ∈ stA.used := by
            rw [← hyfix, hA1]
            exact List.mem_append_left _
              (List.mem_map_of_mem pageStr (List.mem_of_mem_head? hy))
          have := hBgt hyin x (List.mem_of_mem_getLast? hx)
          omega
      · cases hmsB : msB with
        | nil =>
          have hbfix : stB.fixid = stA.fixid := by
            rcases hB5 with ⟨_, heq⟩ | hhead
            · exact heq
            · rw [hmsB] at hhead; cases hhead
          rcases hA5 with ⟨hnil, heq⟩ | hhead
          · exact Or.inl ⟨by simp [hnil], by rw [hbfix, heq]⟩
          · refine Or.inr ?_
            simp only [List.nil_append]
            rw [hhead, hbfix]
        | cons b msB2 =>
          rcases hB5 with ⟨hnil, _⟩ | hhead
          · rw [hmsB] at hnil; cases hnil
          · refine Or.inr ?_
            rw [hmsB] at hhead
            simpa using hhead
      · intro hin m hm
        rcases List.mem_append.mp hm with hmB | hmA
        · cases hmsA : msA with
          | nil =>
            have hsteq : stA.fixid = st.fixid := by
              rcases hA5 with ⟨_, heq⟩ | hhead
              · exact heq
              · rw [hmsA] at hhead; cases hhead
            have hueq : stA.used = st.used := by rw [hA1, hmsA]; simp
            have := hB6 (by rw [hsteq, hueq]; exact hin) m hmB
            omega
          | cons a msA2 =>
            rcases hA5 with ⟨hnil, _⟩ | hhead
            · rw [hmsA] at hnil; cases hnil
            · have hain : pageStr stA.fixid ∈ stA.used := by
                rw [hA1]
                exact List.mem_append_left _
                  (List.mem_map_of_mem pageStr
                    (List.mem_of_mem_head? (Option.mem_def.mpr hhead)))
              have h1 := hB6 hain m hmB
              have h2 := hA6 hin stA.fixid
                (List.mem_of_mem_head? (Option.mem_def.mpr hhead))
              omega
        · exact hA6 hin m hmA
      · constructor
        · intro h
          rcases hB7.mp h with h2 | h2 | h2
          · rcases hA7.mp h2 with h3 | h3 | h3
            · exact Or.inl h3
            · refine Or.inr (Or.inl ?_)
              intro hnil
              exact h3 (List.append_eq_nil.mp hnil).2
            · exact absurd rfl h3
          · refine Or.inr (Or.inl ?_)
            intro hnil
            exact h2 (List.append_eq_nil.mp hnil).1
          · exact absurd rfl h2
        · intro h
          rcases h with h2 | h2 | h2
          · exact hB7.mpr (Or.inl (hA7.mpr (Or.inl h2)))
          · by_cases hB : msB = []
            · refine hB7.mpr (Or.inl (hA7.mpr (Or.inr (Or.inl ?_))))
              intro hA
              exact h2 (by rw [hB, hA]; rfl)
            · exact hB7.mpr (Or.inr (Or.inl hB))
          · exact absurd rfl h2
    · intro hms
      obtain ⟨hmB, hmA⟩ := List.append_eq_nil.mp hms
      have hp1 := hpresA ⟨hmA, rfl⟩
      injection hp1 with hc hst
      have hp2 := hpresB hmB
      injection hp2 with hcs hstb
      rw [hstep, hc, hcs, hstb, hst]
    · rw [hstep]
      show allFixed c2 ∧ allFixedList cs2
      exact ⟨hfixA, hfixB⟩

theorem allFixed_fixNode (isRoot : Bool) (st : FixSt) (n : XNode) :
    allFixed n → fixNode isRoot st n = (n, st) := by
  refine fixNode.induct
    (fun isRoot st n => allFixed n → fixNode isRoot st n = (n, st))
    (fun st cs => allFixedList cs → fixList st cs = (cs, st))
    ?_ ?_ ?_ ?_ ?_ isRoot st n
  · intro isRoot st t idAttr xmlId children hchunk val hattr cs2 st2 hfl ih hall
    obtain ⟨_, hlist⟩ := hall hchunk
    have h2 := ih hlist
    rw [hfl] at h2
    injection h2 with hcs hst
    unfold fixNode
    rw [if_pos hchunk, hattr, hfl, hcs, hst]
  · intro isRoot st t idAttr xmlId children hchunk hattr chunkid st1 hcs st2
      i2 x2 hix cs2 st3 hfl ih hall
    obtain ⟨hne, _⟩ := hall hchunk
    exact absurd hattr hne
  · intro isRoot st t idAttr xmlId children hnot _
    unfold fixNode
    rw [if_neg hnot]
  · intro st _
    rfl
  · intro st c cs c2 stA hfn cs2 stB hfl ih1 ih2 hall
    obtain ⟨hc, hcs⟩ := hall
    have h1 := ih1 hc
    rw [hfn] at h1
    injection h1 with hc2 hstA
    rw [hstA] at ih2
    unfold fixList
    rw [hfn]
    dsimp only
    rw [hstA, hc2, ih2 hcs]

theorem chain'_gt_nodup (l : List Nat) (h : l.Chain' (fun a b => b < a)) :
    l.Nodup := by
  haveI : IsTrans Nat (fun a b : Nat => b < a) :=
    ⟨fun _ _ _ h1 h2 => lt_trans h2 h1⟩
  have hp := (List.chain'_iff_pairwise).mp h
  exact hp.imp (fun hlt => (ne_of_gt hlt))

/-- C8: the id-fixing pass of DocBook staging.  Decomposing the ids present
after the pass as the synthesized ids (`ms` lists the synthesized page
numbers in reverse assignment order, `idx` is the `index` id given to an
id-less chunk root) plus the document's original ids:  every synthesized
page id is of the form `page{n}` and skips every id already used anywhere in
the document, the synthesized ids are pairwise distinct, the page numbers
strictly increase in document (assignment) order, the staged file is
rewritten exactly once when — and only when — some id was synthesized, and
re-running the pass on the staged result changes nothing and synthesizes
nothing, so re-staging the unchanged document (a deterministic function of
the source) assigns the same ids to the same elements. -/
theorem docbook_fixids_spec (t : XNode) :
    ∃ (ms : List Nat) (idx : List String),
      (docbook_fixids t).2.used = ms.map pageStr ++ (idx ++ used_ids t) ∧
      (idx = [] ∨ idx = ["index"]) ∧
      (∀ m ∈ ms, pageStr m ∉ used_ids t ∧ 1 ≤ m) ∧
      (ms.reverse).Chain' (fun a b => a < b) ∧
      (ms.map pageStr ++ idx).Nodup ∧
      ((docbook_fixids t).2.fixed = true ↔ ms.map pageStr ++ idx ≠ []) ∧
      (stage_rewrites (docbook_fixids t).2 =
        if ms.map pageStr ++ idx = [] then 0 else 1) ∧
      (ms.map pageStr ++ idx = [] → (docbook_fixids t).1 = t) ∧
      docbook_fixids (docbook_fixids t).1 =
        ((docbook_fixids t).1,
          { fixid := 1, fixed := false, used := used_ids (docbook_fixids t).1 }) := by
  unfold docbook_fixids
  obtain ⟨ms, idx, hinv, hpres, hallf⟩ :=
    fixNode_inv true { fixid := 1, fixed := false, used := used_ids t } t
  obtain ⟨h1, h2, h3, h4, h5, h6, h7⟩ := hinv
  refine ⟨ms, idx, h1, ?_, h3, ?_, ?_, ?_, ?_, ?_, ?_⟩
  · rcases h2 with h | ⟨_, h⟩
    · exact Or.inl h
    · exact Or.inr h
  · rw [List.chain'_reverse]
    exact h4
  · have hmnd : ms.Nodup := chain'_gt_nodup ms h4
    have hmapnd : (ms.map pageStr).Nodup :=
      hmnd.map (fun a b hab => pageStr_inj hab)
    rcases h2 with hidx | ⟨_, hidx⟩
    · subst hidx
      simpa using hmapnd
    · subst hidx
      refine List.Nodup.append hmapnd (by simp) ?_
      intro a ha hb
      obtain ⟨m, _, rfl⟩ := List.mem_map.mp ha
      have : pageStr m = "index" := by simpa using hb
      exact pageStr_ne_index m this
  · rw [h7]
    constructor
    · intro h
      rcases h with h | h | h
      · exact absurd h (by simp)
      · simp [List.append_eq_nil, h]
      · rcases h2 with hidx | ⟨_, hidx⟩
        · exact absurd hidx h
        · simp [List.append_eq_nil, hidx]
    · intro h
      by_cases hms : ms = []
      · by_cases hidx : idx = []
        · exact absurd (by simp [hms, hidx]) h
        · exact Or.inr (Or.inr hidx)
      · exact Or.inr (Or.inl hms)
  · unfold stage_rewrites
    by_cases hnil : ms.map pageStr ++ idx = []
    · rw [if_pos hnil]
      have hf : ¬ (fixNode true
          { fixid := 1, fixed := false, used := used_ids t } t).2.fixed = true := by
        rw [h7]
        rcases List.append_eq_nil.mp hnil with ⟨hm, hi⟩
        simp only [List.map_eq_nil_iff] at hm
        simp [hm, hi]
      simp [hf]
    · rw [if_neg hnil]
      have hf : (fixNode true
          { fixid := 1, fixed := false, used := used_ids t } t).2.fixed = true := by
        rw [h7]
        by_cases hms : ms = []
        · have hidx : idx ≠ [] := by
            intro hidx
            exact hnil (by simp [hms, hidx])
          exact Or.inr (Or.inr hidx)
        · exact Or.inr (Or.inl hms)
      simp [hf]
  · intro hnil
    obtain ⟨hm, hi⟩ := List.append_eq_nil.mp hnil
    simp only [List.map_eq_nil_iff] at hm
    have := hpres ⟨hm, hi⟩
    show (fixNode true { fixid := 1, fixed := false, used := used_ids t } t).1 = t
    rw [this]
  · exact allFixed_fixNode true _ _ hallf

/-- C8, witness: the id-fixing pass on a concrete book whose chunks lack
ids, next to an explicit `page1` id and a non-chunk element. -/
theorem docbook_fixids_spec_witness :
    ∃ (ms : List Nat) (idx : List String),
      (docbook_fixids (XNode.node "book" none none
        [XNode.node "chapter" none none
          [XNode.node "sect1" (some "page1") none []],
         XNode.node "para" none none [],
         XNode.node "chapter" (some "c2") none []])).2.used =
          ms.map pageStr ++ (idx ++ used_ids (XNode.node "book" none none
            [XNode.node "chapter" none none
              [XNode.node "sect1" (some "page1") none []],
             XNode.node "para" none none [],
             XNode.node "chapter" (some "c2") none []])) ∧
      (idx = [] ∨ idx = ["index"]) ∧
      (∀ m ∈ ms, pageStr m ∉ used_ids (XNode.node "book" none none
        [XNode.node "chapter" none none
          [XNode.node "sect1" (some "page1") none []],
         XNode.node "para" none none [],
         XNode.node "chapter" (some "c2") none []]) ∧ 1 ≤ m) ∧
      (ms.reverse).Chain' (fun a b => a < b) ∧
      (ms.map pageStr ++ idx).Nodup ∧
      ((docbook_fixids (XNode.node "book" none none
        [XNode.node "chapter" none none
          [XNode.node "sect1" (some "page1") none []],
         XNode.node "para" none none [],
         XNode.node "chapter" (some "c2") none []])).2.fixed = true ↔
        ms.map pageStr ++ idx ≠ []) ∧
      (stage_rewrites (docbook_fixids (XNode.node "book" none none
        [XNode.node "chapter" none none
          [XNode.node "sect1" (some "page1") none []],
         XNode.node "para" none none [],
         XNode.node "chapter" (some "c2") none []])).2 =
        if ms.map pageStr ++ idx = [] then 0 else 1) ∧
      (ms.map pageStr ++ idx = [] →
        (docbook_fixids (XNode.node "book" none none
          [XNode.node "chapter" none none
            [XNode.node "sect1" (some "page1") none []],
           XNode.node "para" none none [],
           XNode.node "chapter" (some "c2") none []])).1 =
          XNode.node "book" none none
            [XNode.node "chapter" none none
              [XNode.node "sect1" (some "page1") none []],
             XNode.node "para" none none [],
             XNode.node "chapter" (some "c2") none []]) ∧
      docbook_fixids (docbook_fixids (XNode.node "book" none none
        [XNode.node "chapter" none none
          [XNode.node "sect1" (some "page1") none []],
         XNode.node "para" none none [],
         XNode.node "chapter" (some "c2") none []])).1 =
        ((docbook_fixids (XNode.node "book" none none
          [XNode.node "chapter" none none
            [XNode.node "sect1" (some "page1") none []],
           XNode.node "para" none none [],
           XNode.node "chapter" (some "c2") none []])).1,
          { fixid := 1, fixed := false,
            used := used_ids (docbook_fixids (XNode.node "book" none none
              [XNode.node "chapter" none none
                [XNode.node "sect1" (some "page1") none []],
               XNode.node "para" none none [],
               XNode.node "chapter" (some "c2") none []])).1 }) :=
  docbook_fixids_spec (XNode.node "book" none none
    [XNode.node "chapter" none none
      [XNode.node "sect1" (some "page1") none []],
     XNode.node "para" none none [],
     XNode.node "chapter" (some "c2") none []])
